import Mathlib

/-!
Verification development for the puzzle generation and validation engine of
`src/superstudent.jsx` (the "Equation Builder" game).

Modelling conventions (shallow embedding of the JavaScript source):

* JavaScript numbers are modelled as exact rationals extended with the two
  signed infinities and NaN (`JsVal`).  Binary floating-point rounding is not
  modelled; every concrete expression evaluated in this file has exactly
  representable integer intermediate values, where the model and IEEE doubles
  agree.  The sign of zero is not modelled.

* `safeEval` in the source first gates its input with the regular expression
  `^[0-9+\-*/()]+$` and then hands the string to the JavaScript `Function`
  constructor.  The effect of the `Function` constructor on a string over this
  restricted alphabet is modelled by `evalJs`: a lexer and recursive-descent
  evaluator for the arithmetic fragment (decimal literals without legacy
  leading zeros, binary `+ - * /`, unary sign, parentheses) with JavaScript
  number semantics.  The doubled punctuators `++`, `--` are rejected, as in
  strict-mode JavaScript.  The exponentiation punctuator `**` (which strict
  JavaScript would accept) is also rejected by the model; no statement below
  depends on a string containing `**`.  Both the model and JavaScript signal
  all of these situations by an exception, modelled as `Except.error`.

* Randomness (`Math.random`, `genId`) is modelled by explicit oracle
  parameters: streams of choices for the expression generator, an attempt
  stream for the round generator, and distinct natural-number ids for
  generated tokens (the spec's data model declares ids unique).

* React `useState` state is modelled by explicit state records with pure
  transition functions.
-/

deriving instance DecidableEq for Except

/-- JavaScript number: exact rational, `Infinity`, `-Infinity`, or `NaN`. -/
inductive JsVal where
  | num (q : ℚ)
  | inf
  | ninf
  | nan
deriving DecidableEq, Repr, Inhabited

/-- JavaScript unary minus on numbers. -/
def jneg : JsVal → JsVal
  | .num q => .num (-q)
  | .inf => .ninf
  | .ninf => .inf
  | .nan => .nan

/-- JavaScript `+` on numbers. -/
def jadd : JsVal → JsVal → JsVal
  | .num a, .num b => .num (a + b)
  | .num _, .inf => .inf
  | .num _, .ninf => .ninf
  | .inf, .num _ => .inf
  | .ninf, .num _ => .ninf
  | .inf, .inf => .inf
  | .ninf, .ninf => .ninf
  | .inf, .ninf => .nan
  | .ninf, .inf => .nan
  | _, _ => .nan

/-- JavaScript `-` on numbers (`a - b = a + (-b)` also for the special values). -/
def jsub (a b : JsVal) : JsVal := jadd a (jneg b)

/-- JavaScript `*` on numbers. -/
def jmul : JsVal → JsVal → JsVal
  | .num a, .num b => .num (a * b)
  | .num a, .inf => if 0 < a then .inf else if a < 0 then .ninf else .nan
  | .num a, .ninf => if 0 < a then .ninf else if a < 0 then .inf else .nan
  | .inf, .num b => if 0 < b then .inf else if b < 0 then .ninf else .nan
  | .ninf, .num b => if 0 < b then .ninf else if b < 0 then .inf else .nan
  | .inf, .inf => .inf
  | .ninf, .ninf => .inf
  | .inf, .ninf => .ninf
  | .ninf, .inf => .ninf
  | _, _ => .nan

/-- JavaScript `/` on numbers.  Division of a nonzero number by zero produces
a signed infinity, `0/0` produces `NaN`; this is the behaviour the claims
about non-finite results hinge on. -/
def jdiv : JsVal → JsVal → JsVal
  | .num a, .num b =>
      if b = 0 then (if 0 < a then .inf else if a < 0 then .ninf else .nan)
      else .num (a / b)
  | .num _, .inf => .num 0
  | .num _, .ninf => .num 0
  | .inf, .num b => if b < 0 then .ninf else .inf
  | .ninf, .num b => if b < 0 then .inf else .ninf
  | _, _ => .nan

/-- `Number.isFinite`. -/
def jsFinite : JsVal → Bool
  | .num _ => true
  | _ => false

/-- `Math.round` (round half towards positive infinity); fixed on the
non-finite values. -/
def jsRound : JsVal → JsVal
  | .num q => .num ((⌊q + 1 / 2⌋ : ℤ) : ℚ)
  | .inf => .inf
  | .ninf => .ninf
  | .nan => .nan

/-- `Math.abs`. -/
def jsAbs : JsVal → JsVal
  | .num q => .num |q|
  | .inf => .inf
  | .ninf => .inf
  | .nan => .nan

/-- JavaScript `>` against a finite constant; every comparison with `NaN`
is false. -/
def jsGtQ (v : JsVal) (c : ℚ) : Bool :=
  match v with
  | .num a => decide (c < a)
  | .inf => true
  | .ninf => false
  | .nan => false

/-- JavaScript `===` between a number and an integer constant. -/
def jsEqInt (v : JsVal) (t : ℤ) : Bool :=
  match v with
  | .num q => decide (q = (t : ℚ))
  | _ => false

/-- The operator and parenthesis characters of the fixed grammar. -/
def isOpChar (c : Char) : Bool :=
  c = '+' || c = '-' || c = '*' || c = '/' || c = '(' || c = ')'

/-- Characters accepted by the gate regex `^[0-9+\-*/()]+$`. -/
def allowedChar (c : Char) : Bool := c.isDigit || isOpChar c

/-- Whether a whole string passes the gate regex (at least one character,
all from the class). -/
def charOk (s : String) : Bool := !s.toList.isEmpty && s.toList.all allowedChar

/-- Errors of the modelled evaluator: the gate rejection ("Unsafe
expression") and the exceptions raised by the `Function` constructor. -/
inductive JsErr where
  | badChars
  | badParse
deriving DecidableEq, Repr

/-- Tokens of the modelled JavaScript expression grammar. -/
inductive ETok where
  | num (n : ℕ)
  | plus
  | minus
  | star
  | slash
  | lparen
  | rparen
deriving DecidableEq, Repr

/-- Decimal value of a digit run. -/
def natOfDigits (ds : List Char) : ℕ :=
  ds.foldl (fun n c => 10 * n + (c.toNat - 48)) 0

/-- A numeric literal; strict-mode JavaScript rejects legacy literals with a
leading zero followed by further digits. -/
def mkNumTok (ds : List Char) : Except JsErr ETok :=
  if ds.length > 1 ∧ ds.head? = some '0' then .error .badParse
  else .ok (.num (natOfDigits ds))

/-- Lexer for the restricted alphabet.  The second argument accumulates the
current digit run in reverse.  Doubled `+ +`, `- -`, `* *` punctuators are
rejected (strict JavaScript lexes them as `++`/`--`/`**`; see the header). -/
def lexGo : List Char → List Char → Except JsErr (List ETok)
  | [], [] => .ok []
  | [], ds => do
      let t ← mkNumTok ds.reverse
      .ok [t]
  | c :: cs, ds =>
    if c.isDigit then lexGo cs (c :: ds)
    else do
      let rest ←
        (if c = '+' then
          if cs.head? = some '+' then .error .badParse
          else do
            let ts ← lexGo cs []
            .ok (ETok.plus :: ts)
        else if c = '-' then
          if cs.head? = some '-' then .error .badParse
          else do
            let ts ← lexGo cs []
            .ok (ETok.minus :: ts)
        else if c = '*' then
          if cs.head? = some '*' then .error .badParse
          else do
            let ts ← lexGo cs []
            .ok (ETok.star :: ts)
        else if c = '/' then do
          let ts ← lexGo cs []
          .ok (ETok.slash :: ts)
        else if c = '(' then do
          let ts ← lexGo cs []
          .ok (ETok.lparen :: ts)
        else if c = ')' then do
          let ts ← lexGo cs []
          .ok (ETok.rparen :: ts)
        else .error .badChars)
      match ds with
      | [] => .ok rest
      | _ => do
          let t ← mkNumTok ds.reverse
          .ok (t :: rest)

/-- Lex a whole string. -/
def lexChars (l : List Char) : Except JsErr (List ETok) := lexGo l []

mutual

/-- Additive level of the recursive-descent evaluator. -/
def parseE : ℕ → List ETok → Except JsErr (JsVal × List ETok)
  | 0, _ => .error .badParse
  | fuel + 1, ts => do
      let (v, ts1) ← parseT fuel ts
      parseEL fuel v ts1

/-- Loop over `+`/`-` tails. -/
def parseEL : ℕ → JsVal → List ETok → Except JsErr (JsVal × List ETok)
  | 0, _, _ => .error .badParse
  | fuel + 1, acc, ts =>
    match ts with
    | .plus :: rest => do
        let (v, ts1) ← parseT fuel rest
        parseEL fuel (jadd acc v) ts1
    | .minus :: rest => do
        let (v, ts1) ← parseT fuel rest
        parseEL fuel (jsub acc v) ts1
    | _ => .ok (acc, ts)

/-- Multiplicative level. -/
def parseT : ℕ → List ETok → Except JsErr (JsVal × List ETok)
  | 0, _ => .error .badParse
  | fuel + 1, ts => do
      let (v, ts1) ← parseU fuel ts
      parseTL fuel v ts1

/-- Loop over `*`/`/` tails. -/
def parseTL : ℕ → JsVal → List ETok → Except JsErr (JsVal × List ETok)
  | 0, _, _ => .error .badParse
  | fuel + 1, acc, ts =>
    match ts with
    | .star :: rest => do
        let (v, ts1) ← parseU fuel rest
        parseTL fuel (jmul acc v) ts1
    | .slash :: rest => do
        let (v, ts1) ← parseU fuel rest
        parseTL fuel (jdiv acc v) ts1
    | _ => .ok (acc, ts)

/-- Unary sign level. -/
def parseU : ℕ → List ETok → Except JsErr (JsVal × List ETok)
  | 0, _ => .error .badParse
  | fuel + 1, ts =>
    match ts with
    | .plus :: rest => parseU fuel rest
    | .minus :: rest => do
        let (v, ts1) ← parseU fuel rest
        .ok (jneg v, ts1)
    | _ => parseP fuel ts

/-- Primary level: literals and parenthesized expressions. -/
def parseP : ℕ → List ETok → Except JsErr (JsVal × List ETok)
  | 0, _ => .error .badParse
  | fuel + 1, ts =>
    match ts with
    | .num n :: rest => .ok (.num (n : ℚ), rest)
    | .lparen :: rest => do
        let (v, ts1) ← parseE fuel rest
        match ts1 with
        | .rparen :: ts2 => .ok (v, ts2)
        | _ => .error .badParse
    | _ => .error .badParse

end

/-- Evaluate a string over the restricted alphabet the way the `Function`
constructor does (see the header for the modelled fragment).  The fuel
`4 * length + 8` strictly dominates the recursion depth of the parser. -/
def evalJs (s : String) : Except JsErr JsVal := do
  let ts ← lexChars s.toList
  let (v, rest) ← parseE (4 * s.length + 8) ts
  if rest = [] then .ok v else .error .badParse

/-- Model of `safeEval` (src/superstudent.jsx lines 45-48): gate the string
with the character-class regex, then evaluate it as JavaScript.  Note that
the source performs no finiteness check here: whatever number the evaluation
produces, including `Infinity` and `NaN`, is returned to the caller. -/
def safeEval (s : String) : Except JsErr JsVal :=
  if charOk s then evalJs s else .error .badChars

example : safeEval "(3+4)*2" = .ok (.num 14) := by with_unfolding_all decide
example : safeEval "3+4*2" = .ok (.num 11) := by with_unfolding_all decide
example : safeEval "1/0" = .ok .inf := by with_unfolding_all decide
example : safeEval "3+4a" = .error .badChars := by with_unfolding_all decide
example : safeEval "1+-2" = .ok (.num (-1)) := by with_unfolding_all decide
example : safeEval "1--2" = .error .badParse := by with_unfolding_all decide
example : safeEval "(3+(4*" = .error .badParse := by with_unfolding_all decide

/-- Model of `tokenize` (src lines 40-43): `expr.match(/(\d+|\+|\-|\*|\/|\(|\))/g)`.
The global regex scan emits, left to right, each maximal digit run or single
operator/parenthesis character, and skips any character that matches neither;
a fully unmatched string gives `[]` (the source's `|| []`).  The scan is
implemented structurally, accumulating the current digit run in reverse in
the second argument. -/
def tokenizeGo : List Char → List Char → List String
  | [], [] => []
  | [], ds => [String.mk ds.reverse]
  | c :: cs, ds =>
    if c.isDigit then tokenizeGo cs (c :: ds)
    else
      let rest := if isOpChar c then String.mk [c] :: tokenizeGo cs [] else tokenizeGo cs []
      match ds with
      | [] => rest
      | _ => String.mk ds.reverse :: rest

/-- Tokenize an expression string. -/
def tokenize (s : String) : List String := tokenizeGo s.toList []

example : tokenize "(3+4)*2" = ["(", "3", "+", "4", ")", "*", "2"] := by decide
example : tokenize "3+4a" = ["3", "+", "4"] := by decide
example : tokenize "34+5" = ["34", "+", "5"] := by decide

/-- Model of `balancedParens` (src lines 50-60): running open count, never
negative, zero at the end. -/
def bpGo : List Char → ℤ → Bool
  | [], c => c == 0
  | ch :: rest, c =>
    if ch = '(' then bpGo rest (c + 1)
    else if ch = ')' then
      if c - 1 < 0 then false else bpGo rest (c - 1)
    else bpGo rest c

def balancedParens (s : String) : Bool := bpGo s.toList 0

example : balancedParens "3+(4*" = false := by decide
example : balancedParens "(3+4)*2" = true := by decide

/-- JavaScript `\s` on the characters that can actually occur here (ASCII
whitespace); used to model `.replace(/\s+/g, '')`. -/
def jsWhitespace (c : Char) : Bool :=
  c = ' ' || c = '\t' || c = '\n' || c = '\r' || c.toNat = 11 || c.toNat = 12

/-- Strip whitespace, as `cleanExprStr` is produced in `checkEquation`. -/
def stripWs (s : String) : String :=
  String.mk (s.toList.filter (fun c => !jsWhitespace c))

/-- Outcome of `checkEquation` (src lines 248-285), identified by the popup
and message the source raises; `notWhole` carries the raw value, `wrong` the
rounded value, as in the source's `wrongAnswerData.result`. -/
inductive CheckResult where
  | invalidChars
  | unbalanced
  | cantEval
  | notWhole (v : JsVal)
  | wrong (v : JsVal)
  | correct
deriving DecidableEq, Repr

/-- Model of the body of `checkEquation` on the joined equation text: strip
whitespace, character-class check, balanced-parentheses check, evaluation,
whole-number check, comparison with the target. -/
def checkText (s : String) (target : ℤ) : CheckResult :=
  let clean := stripWs s
  if !charOk clean then .invalidChars
  else if !balancedParens clean then .unbalanced
  else
    match safeEval clean with
    | .error _ => .cantEval
    | .ok v =>
      let r := jsRound v
      if jsGtQ (jsAbs (jsub v r)) (1 / 1000000000) then .notWhole v
      else if jsEqInt r target then .correct
      else .wrong r

/-- Model of `checkEquation`: the source first joins the placed tokens with
no separator. -/
def checkEquation (toks : List String) (target : ℤ) : CheckResult :=
  checkText (String.join toks) target

/-- Model of `Math.round`-based acceptance in `newRound` (src lines 185-190):
`none` when the candidate value is rejected (non-finite, not within `1e-9`
of an integer, or integer magnitude above 1000), otherwise the rounded
integer target. -/
def acceptVal (v : JsVal) : Option ℤ :=
  match v with
  | .num q =>
    let r : ℤ := ⌊q + 1 / 2⌋
    if |q - (r : ℚ)| > 1 / 1000000000 then none
    else if |r| > 1000 then none
    else some r
  | _ => none

/-- A generated round: expression, its token sequence, integer target
(the immutable Puzzle of the spec's data model). -/
structure Puzzle where
  expr : String
  tokens : List String
  target : ℤ
deriving DecidableEq, Repr

/-- src line 5. -/
def ATTEMPT_LIMIT : ℕ := 400

/-- One attempt of the retry loop in `newRound` (src lines 177-208): evaluate
the generated expression inside `try`, apply the acceptance filter, and on
acceptance tokenize the expression and emit the Puzzle. -/
def roundTry (e : String) : Option Puzzle :=
  match safeEval e with
  | .error _ => none
  | .ok v => (acceptVal v).map (fun t => ⟨e, tokenize e, t⟩)

/-- First accepted attempt of a list, if any. -/
def findPuzzle : List String → Option Puzzle
  | [] => none
  | e :: rest =>
    match roundTry e with
    | some p => some p
    | none => findPuzzle rest

/-- The fixed fallback round (src lines 211-218). -/
def fallbackPuzzle : Puzzle := ⟨"(3+4)*2", tokenize "(3+4)*2", 14⟩

/-- Model of the puzzle selection of `newRound`: the generation randomness is
abstracted as the stream `gen` of candidate expressions produced by
`buildRandomExpr`; the loop runs at most `ATTEMPT_LIMIT` attempts and falls
back to `fallbackPuzzle` when all of them are rejected. -/
def newRoundModel (gen : ℕ → String) : Puzzle :=
  (findPuzzle ((List.range ATTEMPT_LIMIT).map gen)).getD fallbackPuzzle

/-- Derived parameter: token count (src line 167, default branch
`numCount = null`). -/
def tokenCount (level : ℕ) : ℕ := min (3 + (level - 1) / 3) 6

/-- Derived parameter: magnitude cap (src line 179). -/
def magnitudeCap (level : ℕ) : ℕ := min 9 (3 + level / 2)

/-- Model of `getTimerDurationForLevel` (src lines 78-82). -/
def getTimerDurationForLevel (level : ℤ) : ℤ :=
  let baseTime : ℤ := 60
  let timeBonus : ℤ := max 0 (10 - (level - 1) * 2)
  max 30 (baseTime + timeBonus)

/-- Model of `randInt` (src line 28): `Math.floor(Math.random()*(b-a+1))+a`
with the random draw `r ∈ [0,1)` passed explicitly. -/
def randInt (a b : ℤ) (r : ℚ) : ℤ := ⌊r * ((b : ℚ) - (a : ℚ) + 1)⌋ + a

/-- Modelled from the spec: token count formula `min(3 + floor((L-1)/3), 6)`
as written in §4.4, for comparison with the source-derived `tokenCount`. -/
def spec_tokenCount (L : ℕ) : ℕ := min (3 + (L - 1) / 3) 6

/-- Modelled from the spec: magnitude cap formula `min(9, 3 + floor(L/2))`
as written in §4.4. -/
def spec_magnitudeCap (L : ℕ) : ℕ := min 9 (3 + L / 2)

/-- Modelled from the spec: timer formula `max(30, 60 + max(0, 10-(L-1)*2))`
as written in §4.4. -/
def spec_timerDuration (L : ℤ) : ℤ := max 30 (60 + max 0 (10 - (L - 1) * 2))

/-- One working item of `buildRandomExpr` (src line 123): expression string
and its numeric value. -/
structure Item where
  expr : String
  value : JsVal
deriving DecidableEq, Repr, Inhabited

/-- src line 4. -/
def OPS : List Char := ['+', '-', '*', '/']

/-- Swap two positions of a list (out-of-range indices leave the list
unchanged; the call sites below always use in-range indices). -/
def swapIdx (l : List α) (i j : ℕ) : List α :=
  match l[i]?, l[j]? with
  | some a, some b => (l.set i b).set j a
  | _, _ => l

/-- Model of `shuffleArray` (src lines 31-38): the Fisher-Yates loop
`for i = n-1 .. 1, j = floor(random()*(i+1)), swap i j`, with the random
draws supplied by `r` (`r i % (i+1)` realizes a uniform choice in `[0,i]`). -/
def fyShuffle (r : ℕ → ℕ) (l : List α) : List α :=
  ((List.range l.length).reverse).foldl
    (fun acc i => if i = 0 then acc else swapIdx acc i (r i % (i + 1))) l

/-- The random draws one iteration of the `buildRandomExpr` loop consumes:
the two item picks, the operand-order coin, the fallback-operator pick, and
the draws of the closing `shuffleArray` call. -/
structure RChoice where
  pi : ℕ
  pj : ℕ
  leftFirst : Bool
  fallIdx : ℕ
  shuf : ℕ → ℕ

/-- State of the `buildRandomExpr` loop: the working items and the remaining
supplied operators (`opsCopy`). -/
structure BState where
  items : List Item
  ops : List Char

/-- `opsCopy.shift() ?? OPS[random]` (src line 129). -/
def pickOp (ops : List Char) (rc : RChoice) : Char × List Char :=
  match ops with
  | [] => (OPS.getD (rc.fallIdx % 4) '+', [])
  | o :: rest => (o, rest)

/-- The two distinct indices drawn at src lines 126-128, normalized from the
oracle: both are reduced mod the item count, and the retry loop that redraws
`j` while `j = i` is modelled by stepping to the next index. -/
def pickIdx (n : ℕ) (rc : RChoice) : ℕ × ℕ :=
  let i := rc.pi % n
  let j0 := rc.pj % n
  (i, if j0 = i then (i + 1) % n else j0)

/-- The candidate substring `'(' + a.expr + op + b.expr + ')'` of src line
133, with the operand order decided by the 50/50 draw. -/
def combineExpr (s : BState) (rc : RChoice) : String :=
  let ij := pickIdx s.items.length rc
  let a := if rc.leftFirst then s.items.getD ij.1 default
           else s.items.getD ij.2 default
  let b := if rc.leftFirst then s.items.getD ij.2 default
           else s.items.getD ij.1 default
  "(" ++ a.expr ++ String.mk [(pickOp s.ops rc).1] ++ b.expr ++ ")"

/-- The splice-and-push of src lines 137-139: remove the two picked indices
(larger first, as the source sorts them descending) and push the combined
item. -/
def reduceItems (items : List Item) (i j : ℕ) (newIt : Item) : List Item :=
  (items.eraseIdx (max i j)).eraseIdx (min i j) ++ [newIt]

/-- One iteration of the `while (items.length > 1)` body of `buildRandomExpr`
(src lines 125-145).  Returns the next state and whether the reduction
succeeded.  On success the two picked items are spliced out, the combined
item is pushed, and the items are reshuffled; on failure (evaluation threw,
or the value is non-finite) the drawn operator is unshifted back and the
items are reshuffled. -/
def stepBRE (s : BState) (rc : RChoice) : BState × Bool :=
  match safeEval (combineExpr s rc) with
  | .ok v =>
    if jsFinite v then
      (⟨fyShuffle rc.shuf
          (reduceItems s.items (pickIdx s.items.length rc).1
            (pickIdx s.items.length rc).2 ⟨combineExpr s rc, v⟩),
        (pickOp s.ops rc).2⟩, true)
    else
      (⟨fyShuffle rc.shuf s.items,
        (pickOp s.ops rc).1 :: (pickOp s.ops rc).2⟩, false)
  | .error _ =>
    (⟨fyShuffle rc.shuf s.items,
      (pickOp s.ops rc).1 :: (pickOp s.ops rc).2⟩, false)

/-- The `while (items.length > 1)` loop, with an explicit fuel bound on the
number of iterations (the source's loop has no such bound; `none` means the
fuel ran out before the loop exited).  Also counts the successful
reductions. -/
def breLoop (rcs : ℕ → RChoice) : ℕ → ℕ → BState → ℕ → Option (List Item × ℕ)
  | 0, _, _, _ => none
  | fuel + 1, k, s, succ =>
    if s.items.length ≤ 1 then some (s.items, succ)
    else
      match stepBRE s (rcs k) with
      | (s', true) => breLoop rcs fuel (k + 1) s' (succ + 1)
      | (s', false) => breLoop rcs fuel (k + 1) s' succ

/-- The initial items of `buildRandomExpr` (src line 123): one item per input
integer, `String(n)` paired with its value. -/
def initItems (numbers : List ℤ) : List Item :=
  numbers.map (fun (n : ℤ) => (⟨toString n, JsVal.num (n : ℚ)⟩ : Item))

/-- Model of `buildRandomExpr` (src lines 122-148): run the reduction loop
and return `items[0].expr` of the final state. -/
def buildRandomExpr (rcs : ℕ → RChoice) (fuel : ℕ) (numbers : List ℤ)
    (ops : List Char) : Option String :=
  (breLoop rcs fuel 0 ⟨initItems numbers, ops⟩ 0).bind
    (fun r => r.1.head?.map Item.expr)

/-- A pool token (src line 193): generated id, text, consumed flag.  The ids
produced by `genId` are modelled as distinct naturals (the spec's data model
declares the id unique). -/
structure PTok where
  id : ℕ
  token : String
  used : Bool
deriving DecidableEq, Repr, Inhabited

/-- An entry of the equation sequence (src line 227): id and text copied from
the pool token. -/
structure ETk where
  id : ℕ
  token : String
deriving DecidableEq, Repr, Inhabited

/-- The player-facing state: the token pool (`availableTokens`) and the
equation sequence (`equationTokens`). -/
structure GState where
  pool : List PTok
  eq : List ETk
deriving DecidableEq, Repr

/-- Model of `addToEquation` (src lines 221-228): indexing past the pool
throws (`none`); a consumed token is a no-op; otherwise the token is marked
consumed and its id and text are appended to the equation. -/
def addToEquation (s : GState) (i : ℕ) : Option GState :=
  match s.pool[i]? with
  | none => none
  | some t =>
    if t.used then some s
    else some ⟨s.pool.set i ⟨t.id, t.token, true⟩, s.eq ++ [⟨t.id, t.token⟩]⟩

/-- Model of `removeFromEquation` (src lines 230-239): indexing past the
equation throws (`none`); otherwise the entry is spliced out and every pool
token whose id equals the removed entry's id is marked available. -/
def removeFromEquation (s : GState) (j : ℕ) : Option GState :=
  match s.eq[j]? with
  | none => none
  | some r =>
    some ⟨s.pool.map (fun t => if t.id = r.id then ⟨t.id, t.token, false⟩ else t),
          s.eq.eraseIdx j⟩

/-- Model of `resetEquation` (src lines 241-246). -/
def resetEquation (s : GState) : GState :=
  ⟨s.pool.map (fun t => ⟨t.id, t.token, false⟩), []⟩

/-- The operations of the equation-builder state machine. -/
inductive PoolOp where
  | place (i : ℕ)
  | unplace (j : ℕ)
  | reset
deriving DecidableEq, Repr

/-- Run a sequence of builder operations; `none` when an operation throws. -/
def runOps : GState → List PoolOp → Option GState
  | s, [] => some s
  | s, op :: rest =>
    match op with
    | .place i => (addToEquation s i).bind (fun s' => runOps s' rest)
    | .unplace j => (removeFromEquation s j).bind (fun s' => runOps s' rest)
    | .reset => runOps (resetEquation s) rest

/-- Model of `revealSolution` (src lines 287-304) on a pool and the original
token sequence: reset every pool token to available, then walk the original
tokens, consuming the first available pool token with matching text, or
synthesizing a fresh entry (the synthetic `genId` of src line 297 is
modelled by the id `1000000 + position`, which the claims ignore). -/
def revealStep (acc : List PTok × List ETk) (tok : String) :
    List PTok × List ETk :=
  match acc.1.findIdx? (fun t => !t.used && t.token == tok) with
  | some i =>
    let t := acc.1.getD i default
    (acc.1.set i ⟨t.id, t.token, true⟩, acc.2 ++ [⟨t.id, t.token⟩])
  | none => (acc.1, acc.2 ++ [⟨1000000 + acc.2.length, tok⟩])

def revealSolution (pool : List PTok) (origToks : List String) :
    List PTok × List ETk :=
  origToks.foldl revealStep
    (pool.map (fun t => (⟨t.id, t.token, false⟩ : PTok)), [])

/-- C1, counterexample: the claim says `safeEval` signals an `EvaluationError`
on division by zero rather than returning infinity; on the accepted input
`"1/0"` the source's `safeEval` returns normally, and the returned value is
`Infinity`, a non-finite value. -/
theorem C1_cex_safeEval_returns_infinity :
    safeEval "1/0" = Except.ok JsVal.inf ∧ jsFinite JsVal.inf = false :=
  ⟨by with_unfolding_all decide, rfl⟩

/-- C1, amended: `safeEval` itself performs no finiteness check and returns
the non-finite value (e.g. `Infinity` for `"1/0"`); it is the callers in the
generator that reject non-finite results — in particular the Round
Generator's acceptance filter rejects every non-finite value. -/
theorem C1_nonfinite_rejected_by_round_filter :
    safeEval "1/0" = Except.ok JsVal.inf ∧
    (∀ v, jsFinite v = false → acceptVal v = none) := by
  refine ⟨by with_unfolding_all decide, ?_⟩
  intro v h
  cases v with
  | num q => simp [jsFinite] at h
  | inf => rfl
  | ninf => rfl
  | nan => rfl

/-- Witness for C1: the amended theorem applied at `JsVal.inf`. -/
theorem C1_witness :
    acceptVal JsVal.inf = none ∧ safeEval "1/0" = Except.ok JsVal.inf :=
  ⟨C1_nonfinite_rejected_by_round_filter.2 JsVal.inf rfl,
   C1_nonfinite_rejected_by_round_filter.1⟩

/-- C2: what the model can state of the Safe Evaluator's closure property:
any string containing a character outside `{0-9,+,-,*,/,(,)}` is rejected
before anything is evaluated.  The delegation half of the claim is refuted
by the source text itself (src line 47 constructs and invokes a
`new Function(...)`), which is recorded as a code bug, not as a theorem. -/
theorem C2_character_gate (s : String) (h : s.toList.all allowedChar = false) :
    safeEval s = Except.error JsErr.badChars := by
  have hc : charOk s = false := by
    unfold charOk
    rw [h, Bool.and_false]
  simp [safeEval, hc]

/-- Witness for C2: the gate rejects `"alert(1)"`. -/
theorem C2_witness : safeEval "alert(1)" = Except.error JsErr.badChars :=
  C2_character_gate "alert(1)" (by decide)

/-- C5: the checker applies its checks in the fixed order — character
grammar, balanced parentheses, evaluation, whole number, target
comparison — returning the failure of the first failing check; on `"3+4*2"`
against target 14 it reports `WrongAnswer` with value 11, and on `"3+(4*"`
it reports unbalanced parentheses, not an evaluation error. -/
theorem C5_checker_order :
    (∀ s t, charOk (stripWs s) = false → checkText s t = .invalidChars) ∧
    (∀ s t, charOk (stripWs s) = true → balancedParens (stripWs s) = false →
      checkText s t = .unbalanced) ∧
    (∀ s t e, charOk (stripWs s) = true → balancedParens (stripWs s) = true →
      safeEval (stripWs s) = .error e → checkText s t = .cantEval) ∧
    (∀ s t v, charOk (stripWs s) = true → balancedParens (stripWs s) = true →
      safeEval (stripWs s) = .ok v →
      jsGtQ (jsAbs (jsub v (jsRound v))) (1 / 1000000000) = true →
      checkText s t = .notWhole v) ∧
    (∀ s t v, charOk (stripWs s) = true → balancedParens (stripWs s) = true →
      safeEval (stripWs s) = .ok v →
      jsGtQ (jsAbs (jsub v (jsRound v))) (1 / 1000000000) = false →
      checkText s t =
        (if jsEqInt (jsRound v) t then .correct else .wrong (jsRound v))) ∧
    checkText "3+4*2" 14 = .wrong (.num 11) ∧
    checkText "3+(4*" 14 = .unbalanced := by
  refine ⟨?_, ?_, ?_, ?_, ?_, ?_, ?_⟩
  · intro s t h
    simp only [checkText, h]
    simp
  · intro s t h1 h2
    simp only [checkText, h1, h2]
    simp
  · intro s t e h1 h2 h3
    simp only [checkText, h1, h2, h3]
    simp
  · intro s t v h1 h2 h3 h4
    simp only [checkText, h1, h2, h3, h4]
    simp
  · intro s t v h1 h2 h3 h4
    simp only [checkText, h1, h2, h3, h4]
    simp
  · with_unfolding_all decide
  · with_unfolding_all decide

/-- Witness for C5: the first conjunct applied to the empty equation text. -/
theorem C5_witness : checkText "" 14 = CheckResult.invalidChars :=
  C5_checker_order.1 "" 14 (by decide)

/-- C10: the tokenizer silently skips an unrecognized character wherever it
appears — both between tokens and inside the scan with a pending digit run —
and on `"3+4a"` it yields `["3","+","4"]`, whose concatenation differs from
the input; digit runs are maximal (`"34+5"` yields `["34","+","5"]`). -/
theorem C10_tokenizer_skips :
    (∀ (c : Char) (cs : List Char), allowedChar c = false →
      tokenizeGo (c :: cs) [] = tokenizeGo cs []) ∧
    (∀ (c : Char) (cs ds : List Char), allowedChar c = false → ds ≠ [] →
      tokenizeGo (c :: cs) ds = String.mk ds.reverse :: tokenizeGo cs []) ∧
    tokenize "3+4a" = ["3", "+", "4"] ∧
    String.join (tokenize "3+4a") ≠ "3+4a" ∧
    tokenize "12a3" = ["12", "3"] ∧
    tokenize "34+5" = ["34", "+", "5"] := by
  have hsplit : ∀ c : Char, allowedChar c = false →
      c.isDigit = false ∧ isOpChar c = false := by
    intro c h
    simpa [allowedChar] using h
  refine ⟨?_, ?_, by decide, by decide, by decide, by decide⟩
  · intro c cs h
    obtain ⟨h1, h2⟩ := hsplit c h
    simp [tokenizeGo, h1, h2]
  · intro c cs ds h hds
    obtain ⟨h1, h2⟩ := hsplit c h
    match ds, hds with
    | d :: ds', _ => simp [tokenizeGo, h1, h2]

/-- Witness for C10: the skip lemma applied at the character `'a'`. -/
theorem C10_witness :
    allowedChar 'a' = false ∧ tokenizeGo ['a', '1'] [] = tokenizeGo ['1'] [] :=
  ⟨by decide, C10_tokenizer_skips.1 'a' ['1'] (by decide)⟩

/-- Helper: when every attempt of a list is rejected, no puzzle is found. -/
theorem findPuzzle_none : ∀ l : List String,
    (∀ e ∈ l, roundTry e = none) → findPuzzle l = none
  | [], _ => rfl
  | e :: rest, h => by
    have he : roundTry e = none := h e (by simp)
    have ih := findPuzzle_none rest (fun x hx => h x (by simp [hx]))
    simp [findPuzzle, he, ih]

/-- C3: an attempt is accepted only when its value is finite (`safeEval`
returned a number), within `1e-9` of the rounded integer target, and that
target has magnitude at most 1000; and when all `ATTEMPT_LIMIT = 400`
attempts are rejected the generator emits the fixed fallback puzzle with
expression `"(3+4)*2"` and target `14`. -/
theorem C3_round_filter_and_fallback :
    (∀ e p, roundTry e = some p →
      ∃ q : ℚ, safeEval e = .ok (.num q) ∧ p.expr = e ∧ p.tokens = tokenize e ∧
        p.target = ⌊q + 1 / 2⌋ ∧ |q - (p.target : ℚ)| ≤ 1 / 1000000000 ∧
        |p.target| ≤ 1000) ∧
    (∀ gen : ℕ → String, (∀ k, k < ATTEMPT_LIMIT → roundTry (gen k) = none) →
      newRoundModel gen = fallbackPuzzle) ∧
    fallbackPuzzle.expr = "(3+4)*2" ∧ fallbackPuzzle.target = 14 := by
  refine ⟨?_, ?_, rfl, rfl⟩
  · intro e p hp
    unfold roundTry at hp
    cases hse : safeEval e with
    | error err => rw [hse] at hp; cases hp
    | ok v =>
      rw [hse] at hp
      cases v with
      | inf => simp [acceptVal] at hp
      | ninf => simp [acceptVal] at hp
      | nan => simp [acceptVal] at hp
      | num q =>
        refine ⟨q, rfl, ?_⟩
        simp only [acceptVal] at hp
        split_ifs at hp with h1 h2
        · simp at hp
        · simp at hp
        · simp only [Option.map_some'] at hp
          cases hp
          exact ⟨rfl, rfl, rfl, le_of_not_lt h1, le_of_not_lt h2⟩
  · intro gen h
    unfold newRoundModel
    rw [findPuzzle_none]
    · rfl
    · intro e he
      rcases List.mem_map.mp he with ⟨k, hk, rfl⟩
      exact h k (List.mem_range.mp hk)

/-- Witness for C3: the acceptance conjunct applied to the concrete attempt
`"(3+4)*2"`, and the fallback conjunct applied to a stream of rejected
attempts. -/
theorem C3_witness :
    (∃ q : ℚ, safeEval "(3+4)*2" = .ok (.num q) ∧
      fallbackPuzzle.expr = "(3+4)*2" ∧
      fallbackPuzzle.tokens = tokenize "(3+4)*2" ∧
      fallbackPuzzle.target = ⌊q + 1 / 2⌋ ∧
      |q - (fallbackPuzzle.target : ℚ)| ≤ 1 / 1000000000 ∧
      |fallbackPuzzle.target| ≤ 1000) ∧
    newRoundModel (fun _ => "a") = fallbackPuzzle :=
  ⟨C3_round_filter_and_fallback.1 "(3+4)*2" fallbackPuzzle
     (by with_unfolding_all decide),
   C3_round_filter_and_fallback.2.1 (fun _ => "a") (fun k _ => rfl)⟩

/-- C8: the derived round parameters follow exactly the formulas stated in
the spec — token count `min(3+floor((L-1)/3),6)`, magnitude cap
`min(9,3+floor(L/2))` (at least 3, so nonempty range), timer
`max(30,60+max(0,10-(L-1)*2))` — and `randInt 1 cap` maps every draw
`r ∈ [0,1)` into `[1,cap]`, with the draws producing a given value `k`
forming the interval `[(k-1)/cap, k/cap)` of equal length `1/cap` for each
`k` (uniformity). -/
theorem C8_round_parameters :
    (∀ L : ℕ, tokenCount L = spec_tokenCount L) ∧
    (∀ L : ℕ, magnitudeCap L = spec_magnitudeCap L) ∧
    (∀ L : ℤ, getTimerDurationForLevel L = spec_timerDuration L) ∧
    (∀ L : ℕ, 3 ≤ magnitudeCap L) ∧
    (∀ (n : ℤ) (r : ℚ), 1 ≤ n → 0 ≤ r → r < 1 →
      1 ≤ randInt 1 n r ∧ randInt 1 n r ≤ n) ∧
    (∀ (n k : ℤ) (r : ℚ), 1 ≤ n → 0 ≤ r → r < 1 →
      (randInt 1 n r = k ↔ ((k : ℚ) - 1 ≤ r * (n : ℚ) ∧ r * (n : ℚ) < (k : ℚ)))) := by
  refine ⟨fun L => rfl, fun L => rfl, fun L => rfl, ?_, ?_, ?_⟩
  · intro L
    unfold magnitudeCap
    omega
  · intro n r hn hr0 hr1
    have hmul : r * ((1 : ℚ) + ((n : ℚ) - 1)) = r * (n : ℚ) := by ring
    have hn0 : (0 : ℚ) < (n : ℚ) := by exact_mod_cast lt_of_lt_of_le zero_lt_one hn
    have h0 : (0 : ℚ) ≤ r * (n : ℚ) := mul_nonneg hr0 (le_of_lt hn0)
    have hlt : r * (n : ℚ) < ((n : ℤ) : ℚ) := by
      calc r * (n : ℚ) < 1 * (n : ℚ) := mul_lt_mul_of_pos_right hr1 hn0
        _ = (n : ℚ) := one_mul _
    have heq : randInt 1 n r = ⌊r * (n : ℚ)⌋ + 1 := by
      unfold randInt
      norm_num
    constructor
    · rw [heq]
      have := Int.floor_nonneg.mpr h0
      omega
    · rw [heq]
      have := Int.floor_lt.mpr hlt
      omega
  · intro n k r hn hr0 hr1
    have hn0 : (0 : ℚ) < (n : ℚ) := by exact_mod_cast lt_of_lt_of_le zero_lt_one hn
    have heq : randInt 1 n r = ⌊r * (n : ℚ)⌋ + 1 := by
      unfold randInt
      norm_num
    rw [heq]
    constructor
    · intro h
      have hf : ⌊r * (n : ℚ)⌋ = k - 1 := by omega
      rcases Int.floor_eq_iff.mp hf with ⟨hle, hlt⟩
      constructor
      · push_cast at hle ⊢
        linarith
      · push_cast at hlt ⊢
        linarith
    · rintro ⟨h1, h2⟩
      have hf : ⌊r * (n : ℚ)⌋ = k - 1 := by
        rw [Int.floor_eq_iff]
        constructor
        · push_cast
          linarith
        · push_cast
          linarith
      omega

/-- Witness for C8: the formulas and the range bound at level 5, cap 9 and
the draw `r = 1/2`. -/
theorem C8_witness :
    tokenCount 5 = spec_tokenCount 5 ∧
    getTimerDurationForLevel 5 = spec_timerDuration 5 ∧
    3 ≤ magnitudeCap 5 ∧
    1 ≤ randInt 1 9 (1 / 2) ∧ randInt 1 9 (1 / 2) ≤ 9 :=
  ⟨C8_round_parameters.1 5, C8_round_parameters.2.2.1 5,
   C8_round_parameters.2.2.2.1 5,
   (C8_round_parameters.2.2.2.2.1 9 (1 / 2) (by norm_num) (by norm_num)
     (by norm_num)).1,
   (C8_round_parameters.2.2.2.2.1 9 (1 / 2) (by norm_num) (by norm_num)
     (by norm_num)).2⟩

/-- Helper: the data of a joined string is the join of the data. -/
theorem foldl_append_data : ∀ (ts : List String) (acc : String),
    (ts.foldl (fun r s => r ++ s) acc).data = acc.data ++ (ts.map String.data).flatten
  | [], acc => by simp
  | t :: ts, acc => by
    simp [List.foldl_cons, foldl_append_data ts (acc ++ t)]

theorem join_data (ts : List String) :
    (String.join ts).data = (ts.map String.data).flatten := by
  simpa [String.join] using foldl_append_data ts ""

/-- Helper: on a string over the fixed alphabet the tokenizer loses nothing:
the emitted tokens concatenate, after the pending run, back to the input. -/
theorem tokenizeGo_data : ∀ (l ds : List Char),
    (∀ c ∈ l, allowedChar c = true) →
    ((tokenizeGo l ds).map String.data).flatten = ds.reverse ++ l
  | [], [], _ => by simp [tokenizeGo]
  | [], d :: ds, _ => by simp [tokenizeGo, String.mk]
  | c :: cs, ds, h => by
    have hc : allowedChar c = true := h c (by simp)
    have hcs : ∀ x ∈ cs, allowedChar x = true := fun x hx => h x (by simp [hx])
    by_cases hd : c.isDigit
    · simp only [tokenizeGo, hd, if_true]
      rw [tokenizeGo_data cs (c :: ds) hcs]
      simp
    · have hop : isOpChar c = true := by
        have := hc
        simp [allowedChar, hd] at this
        exact this
      have hd' : c.isDigit = false := by simpa using hd
      cases ds with
      | nil =>
        simp only [tokenizeGo, hop, if_true]
        rw [if_neg hd]
        simp only [List.map_cons, List.flatten_cons]
        rw [tokenizeGo_data cs [] hcs]
        simp [String.mk]
      | cons d ds' =>
        simp only [tokenizeGo, hop, if_true]
        rw [if_neg hd]
        simp only [List.map_cons, List.flatten_cons]
        rw [tokenizeGo_data cs [] hcs]
        simp [String.mk]

/-- Helper: over the fixed alphabet, joining the tokens reproduces the
expression string. -/
theorem join_tokenize (s : String) (h : ∀ c ∈ s.toList, allowedChar c = true) :
    String.join (tokenize s) = s := by
  apply String.ext
  rw [join_data]
  unfold tokenize
  rw [tokenizeGo_data s.toList [] h]
  simp [String.toList]

/-- Helper: one reveal step appends exactly one equation entry, carrying the
original token text (either the matching pool token's equal text or the
synthesized copy). -/
theorem revealStep_token (acc : List PTok × List ETk) (tok : String) :
    (revealStep acc tok).2.map ETk.token = acc.2.map ETk.token ++ [tok] := by
  unfold revealStep
  cases hf : acc.1.findIdx? (fun t => !t.used && t.token == tok) with
  | none => simp
  | some i =>
    rcases List.findIdx?_eq_some_iff_getElem.mp hf with ⟨hlt, hp, _⟩
    have ht : acc.1[i]?.getD default = acc.1[i] := by
      rw [List.getElem?_eq_getElem hlt]
      rfl
    have htok : (acc.1[i]).token = tok := by
      rw [Bool.and_eq_true] at hp
      exact eq_of_beq hp.2
    simp [List.getD, ht, htok]

/-- Helper: the reveal fold appends the walked token texts in order. -/
theorem revealFold_tokens : ∀ (toks : List String) (acc : List PTok × List ETk),
    ((toks.foldl revealStep acc).2).map ETk.token = acc.2.map ETk.token ++ toks
  | [], acc => by simp
  | tok :: toks, acc => by
    rw [List.foldl_cons, revealFold_tokens toks (revealStep acc tok),
      revealStep_token]
    simp

/-- C9: for every pool state, `revealSolution` produces an equation sequence
whose token texts are exactly the puzzle's original token sequence in order,
and whose concatenation is exactly the original expression string (every
Puzzle's expression is over the fixed alphabet, which is the stated
hypothesis). -/
theorem C9_reveal_matches_expression (pool : List PTok) (expr : String)
    (h : ∀ c ∈ expr.toList, allowedChar c = true) :
    ((revealSolution pool (tokenize expr)).2).map ETk.token = tokenize expr ∧
    String.join (((revealSolution pool (tokenize expr)).2).map ETk.token) =
      expr := by
  have h1 : ((revealSolution pool (tokenize expr)).2).map ETk.token =
      tokenize expr := by
    unfold revealSolution
    rw [revealFold_tokens]
    simp
  exact ⟨h1, by rw [h1]; exact join_tokenize expr h⟩

/-- Witness for C9: a pool in a partially consumed, shuffled state and the
fallback expression. -/
theorem C9_witness :
    ((revealSolution
        [⟨3, "4", true⟩, ⟨0, "(", false⟩, ⟨2, "+", false⟩, ⟨1, "3", true⟩,
         ⟨4, ")", false⟩, ⟨5, "*", false⟩, ⟨6, "2", false⟩]
        (tokenize "(3+4)*2")).2).map ETk.token = tokenize "(3+4)*2" ∧
    String.join (((revealSolution
        [⟨3, "4", true⟩, ⟨0, "(", false⟩, ⟨2, "+", false⟩, ⟨1, "3", true⟩,
         ⟨4, ")", false⟩, ⟨5, "*", false⟩, ⟨6, "2", false⟩]
        (tokenize "(3+4)*2")).2).map ETk.token) = "(3+4)*2" :=
  C9_reveal_matches_expression
    [⟨3, "4", true⟩, ⟨0, "(", false⟩, ⟨2, "+", false⟩, ⟨1, "3", true⟩,
     ⟨4, ")", false⟩, ⟨5, "*", false⟩, ⟨6, "2", false⟩]
    "(3+4)*2" (by decide)

/-- Helper: a swap preserves the length. -/
theorem swapIdx_length {α : Type} (l : List α) (i j : ℕ) :
    (swapIdx l i j).length = l.length := by
  unfold swapIdx
  cases hi : l[i]? with
  | none => rfl
  | some a =>
    cases hj : l[j]? with
    | none => rfl
    | some b => simp

/-- Helper: the Fisher-Yates fold preserves the length. -/
theorem foldl_swap_length {α : Type} (r : ℕ → ℕ) :
    ∀ (idxs : List ℕ) (acc : List α),
    (idxs.foldl
        (fun acc i => if i = 0 then acc else swapIdx acc i (r i % (i + 1)))
        acc).length = acc.length
  | [], _ => rfl
  | i :: idxs, acc => by
    rw [List.foldl_cons, foldl_swap_length r idxs]
    by_cases h : i = 0
    · simp [h]
    · simp [h, swapIdx_length]

/-- Helper: `shuffleArray` preserves the length. -/
theorem fyShuffle_length {α : Type} (r : ℕ → ℕ) (l : List α) :
    (fyShuffle r l).length = l.length := by
  unfold fyShuffle
  exact foldl_swap_length r _ l

/-- Helper: on at least two items the normalized picks are two distinct
in-range indices, as produced by the redraw loop of src lines 126-128. -/
theorem pickIdx_valid (n : ℕ) (rc : RChoice) (h2 : 2 ≤ n) :
    (pickIdx n rc).1 < n ∧ (pickIdx n rc).2 < n ∧
      (pickIdx n rc).1 ≠ (pickIdx n rc).2 := by
  have hn : 0 < n := by omega
  unfold pickIdx
  have hi : rc.pi % n < n := Nat.mod_lt _ hn
  have hj0 : rc.pj % n < n := Nat.mod_lt _ hn
  by_cases he : rc.pj % n = rc.pi % n
  · simp only [he, if_true]
    refine ⟨hi, ?_, ?_⟩
    · exact Nat.mod_lt _ hn
    · by_cases hlt : rc.pi % n + 1 < n
      · rw [Nat.mod_eq_of_lt hlt]
        omega
      · have hend : rc.pi % n + 1 = n := by omega
        rw [hend, Nat.mod_self]
        omega
  · simp only [he, if_false]
    exact ⟨hi, hj0, fun hc => he (hc.symm)⟩

/-- Helper: the splice-and-push shrinks the item list by exactly one. -/
theorem reduceItems_length (items : List Item) (i j : ℕ) (newIt : Item)
    (hi : i < items.length) (hj : j < items.length) (hij : i ≠ j) :
    (reduceItems items i j newIt).length = items.length - 1 := by
  unfold reduceItems
  rcases Nat.lt_or_ge i j with hlt | hge
  · rw [Nat.max_eq_right (Nat.le_of_lt hlt), Nat.min_eq_left (Nat.le_of_lt hlt)]
    have hi' : i < (items.eraseIdx j).length := by
      have := List.length_eraseIdx_of_lt hj
      omega
    have e1 := List.length_eraseIdx_of_lt hi'
    have e2 := List.length_eraseIdx_of_lt hj
    simp only [List.length_append, List.length_singleton]
    omega
  · have hlt : j < i := by omega
    rw [Nat.max_eq_left (Nat.le_of_lt hlt), Nat.min_eq_right (Nat.le_of_lt hlt)]
    have hj' : j < (items.eraseIdx i).length := by
      have := List.length_eraseIdx_of_lt hi
      omega
    have e1 := List.length_eraseIdx_of_lt hj'
    have e2 := List.length_eraseIdx_of_lt hi
    simp only [List.length_append, List.length_singleton]
    omega

/-- Helper: a successful step shrinks the working items by exactly one and a
failed step leaves their number unchanged. -/
theorem stepBRE_length (s : BState) (rc : RChoice) (h2 : 2 ≤ s.items.length) :
    ((stepBRE s rc).2 = true ∧
      (stepBRE s rc).1.items.length = s.items.length - 1) ∨
    ((stepBRE s rc).2 = false ∧
      (stepBRE s rc).1.items.length = s.items.length) := by
  obtain ⟨hi, hj, hij⟩ := pickIdx_valid s.items.length rc h2
  unfold stepBRE
  cases heval : safeEval (combineExpr s rc) with
  | error err =>
    right
    exact ⟨rfl, by simp [fyShuffle_length]⟩
  | ok v =>
    by_cases hfin : jsFinite v = true
    · left
      refine ⟨by simp [hfin], ?_⟩
      simp only [hfin, if_true]
      rw [fyShuffle_length, reduceItems_length _ _ _ _ hi hj hij]
    · have hfin' : jsFinite v = false := by simpa using hfin
      right
      refine ⟨by simp [hfin'], by simp [hfin', fyShuffle_length]⟩

/-- Helper: when the reduction loop exits within its fuel, the final item
list is a singleton and the number of successful reductions is exactly the
initial item count minus one. -/
theorem breLoop_spec (rcs : ℕ → RChoice) :
    ∀ (fuel k : ℕ) (s : BState) (succ0 : ℕ) (final : List Item) (succ : ℕ),
    1 ≤ s.items.length →
    breLoop rcs fuel k s succ0 = some (final, succ) →
    final.length = 1 ∧ succ + 1 = succ0 + s.items.length
  | 0, _, _, _, _, _ => by
    intro h1 h
    cases h
  | fuel + 1, k, s, succ0, final, succ => by
    intro h1 hrun
    unfold breLoop at hrun
    by_cases hle : s.items.length ≤ 1
    · rw [if_pos hle] at hrun
      cases hrun
      omega
    · rw [if_neg hle] at hrun
      have h2 : 2 ≤ s.items.length := by omega
      rcases hstep : stepBRE s (rcs k) with ⟨s', b⟩
      rw [hstep] at hrun
      rcases stepBRE_length s (rcs k) h2 with ⟨hb, hlen⟩ | ⟨hb, hlen⟩ <;>
        rw [hstep] at hb hlen
      · simp only at hb hlen
        rw [hb] at hrun
        have h1' : 1 ≤ s'.items.length := by omega
        obtain ⟨hf, hs⟩ := breLoop_spec rcs fuel (k + 1) s' (succ0 + 1)
          final succ h1' hrun
        exact ⟨hf, by omega⟩
      · simp only at hb hlen
        rw [hb] at hrun
        have h1' : 1 ≤ s'.items.length := by omega
        obtain ⟨hf, hs⟩ := breLoop_spec rcs fuel (k + 1) s' succ0
          final succ h1' hrun
        exact ⟨hf, by omega⟩

/-- C6: each successful reduction of the expression-generator loop decreases
the working-item count by exactly one, and whenever the loop exits (for any
`N ≥ 1` input numbers, any operator list and any random choices), it exits
with exactly one remaining item after exactly `N - 1` successful reductions,
and `buildRandomExpr` returns that item's fully parenthesized expression
string. -/
theorem C6_generator_reduction :
    (∀ (s : BState) (rc : RChoice), 2 ≤ s.items.length →
      (stepBRE s rc).2 = true →
      (stepBRE s rc).1.items.length = s.items.length - 1) ∧
    (∀ (rcs : ℕ → RChoice) (fuel : ℕ) (numbers : List ℤ) (ops : List Char)
        (final : List Item) (succ : ℕ),
      numbers ≠ [] →
      breLoop rcs fuel 0 ⟨initItems numbers, ops⟩ 0 = some (final, succ) →
      succ = numbers.length - 1 ∧
      ∃ it : Item, final = [it] ∧
        buildRandomExpr rcs fuel numbers ops = some it.expr) := by
  constructor
  · intro s rc h2 htrue
    rcases stepBRE_length s rc h2 with ⟨_, hlen⟩ | ⟨hb, _⟩
    · exact hlen
    · rw [htrue] at hb
      cases hb
  · intro rcs fuel numbers ops final succ hne hrun
    have hlen0 : (initItems numbers).length = numbers.length := by
      unfold initItems
      simp
    have hlen1 : 1 ≤ (⟨initItems numbers, ops⟩ : BState).items.length := by
      simp only [hlen0]
      exact List.length_pos.mpr hne
    obtain ⟨hfin, hsucc⟩ :=
      breLoop_spec rcs fuel 0 ⟨initItems numbers, ops⟩ 0 final succ hlen1 hrun
    simp only [hlen0] at hsucc
    refine ⟨by omega, ?_⟩
    obtain ⟨it, hit⟩ := List.length_eq_one.mp hfin
    refine ⟨it, hit, ?_⟩
    unfold buildRandomExpr
    rw [hrun, hit]
    rfl

/-- Witness for C6: the loop run on numbers `[3,4]` with operator `'+'` and a
fixed choice stream, which reduces in one step to the single item
`("(3+4)", 7)`. -/
theorem C6_witness :
    1 = ([3, 4] : List ℤ).length - 1 ∧
    ∃ it : Item, [(⟨"(3+4)", JsVal.num 7⟩ : Item)] = [it] ∧
      buildRandomExpr (fun _ => ⟨0, 1, true, 0, fun _ => 0⟩) 2 [3, 4] ['+'] =
        some it.expr :=
  C6_generator_reduction.2 (fun _ => ⟨0, 1, true, 0, fun _ => 0⟩) 2 [3, 4]
    ['+'] [⟨"(3+4)", JsVal.num 7⟩] 1 (by decide)
    (by with_unfolding_all decide)

/-- The id-and-text pair of a pool token, the data the conservation
invariant tracks. -/
def pairOf (t : PTok) : ℕ × String := (t.id, t.token)

/-- The id-and-text pairs of the consumed pool tokens. -/
def usedPairs (pool : List PTok) : List (ℕ × String) :=
  (pool.filter (fun t => t.used)).map pairOf

/-- The id-and-text pairs of the equation sequence. -/
def eqPairs (eq : List ETk) : List (ℕ × String) :=
  eq.map (fun e => (e.id, e.token))

/-- The running invariant of the equation builder relative to the freshly
built pool `pool0`: ids and texts are positionally unchanged, and the
equation entries are, as a multiset, exactly the consumed pool entries. -/
def PoolInv (pool0 : List PTok) (s : GState) : Prop :=
  s.pool.map PTok.id = pool0.map PTok.id ∧
  s.pool.map PTok.token = pool0.map PTok.token ∧
  (eqPairs s.eq).Perm (usedPairs s.pool)

/-- Helper: setting a position to the value it already holds is the
identity. -/
theorem set_getElem?_self {α : Type} : ∀ (l : List α) (i : ℕ) (a : α),
    l[i]? = some a → l.set i a = l
  | [], _, _, h => by cases h
  | x :: xs, 0, a, h => by
    simp only [List.getElem?_cons_zero, Option.some.injEq] at h
    simp [h]
  | x :: xs, i + 1, a, h => by
    simp only [List.getElem?_cons_succ] at h
    simp [set_getElem?_self xs i a h]

/-- Helper: mapping a function that agrees on the replaced entry commutes
away a `set`. -/
theorem map_set_same {β : Type} (f : PTok → β) (pool : List PTok) (i : ℕ)
    (t t' : PTok) (hget : pool[i]? = some t) (hf : f t' = f t) :
    (pool.set i t').map f = pool.map f := by
  rw [List.map_set]
  apply set_getElem?_self
  rw [List.getElem?_map, hget]
  simp [hf]

/-- Helper: consuming an available token adds exactly its pair to the
consumed multiset. -/
theorem usedPairs_set_true : ∀ (pool : List PTok) (i : ℕ) (t : PTok),
    pool[i]? = some t → t.used = false →
    (usedPairs (pool.set i ⟨t.id, t.token, true⟩)).Perm
      ((t.id, t.token) :: usedPairs pool)
  | [], _, _, h, _ => by cases h
  | p :: rest, 0, t, h, hu => by
    simp only [List.getElem?_cons_zero, Option.some.injEq] at h
    subst h
    simp only [List.set_cons_zero]
    have : usedPairs ((⟨p.id, p.token, true⟩ : PTok) :: rest) =
        (p.id, p.token) :: usedPairs rest := by
      simp [usedPairs, List.filter_cons, pairOf]
    rw [this]
    have : usedPairs (p :: rest) = usedPairs rest := by
      simp [usedPairs, List.filter_cons, hu]
    rw [this]
  | p :: rest, i + 1, t, h, hu => by
    simp only [List.getElem?_cons_succ] at h
    have ih := usedPairs_set_true rest i t h hu
    simp only [List.set_cons_succ]
    by_cases hp : p.used
    · have h1 : usedPairs (p :: rest.set i ⟨t.id, t.token, true⟩) =
          pairOf p :: usedPairs (rest.set i ⟨t.id, t.token, true⟩) := by
        simp [usedPairs, List.filter_cons, hp]
      have h2 : usedPairs (p :: rest) = pairOf p :: usedPairs rest := by
        simp [usedPairs, List.filter_cons, hp]
      rw [h1, h2]
      exact (ih.cons (pairOf p)).trans (List.Perm.swap _ _ _)
    · have h1 : usedPairs (p :: rest.set i ⟨t.id, t.token, true⟩) =
          usedPairs (rest.set i ⟨t.id, t.token, true⟩) := by
        simp [usedPairs, List.filter_cons, hp]
      have h2 : usedPairs (p :: rest) = usedPairs rest := by
        simp [usedPairs, List.filter_cons, hp]
      rw [h1, h2]
      exact ih

/-- Helper: a pair in the consumed multiset names an id present in the
pool. -/
theorem usedPairs_mem_id (pool : List PTok) (pr : ℕ × String)
    (h : pr ∈ usedPairs pool) : pr.1 ∈ pool.map PTok.id := by
  unfold usedPairs at h
  rcases List.mem_map.mp h with ⟨t, ht, rfl⟩
  exact List.mem_map.mpr ⟨t, (List.mem_filter.mp ht).1, rfl⟩

/-- Helper: the consumed pairs of a cons, by the head's flag. -/
theorem usedPairs_cons_true (p : PTok) (rest : List PTok) (hp : p.used = true) :
    usedPairs (p :: rest) = pairOf p :: usedPairs rest := by
  simp [usedPairs, List.filter_cons, hp]

theorem usedPairs_cons_false (p : PTok) (rest : List PTok)
    (hp : p.used = false) : usedPairs (p :: rest) = usedPairs rest := by
  simp [usedPairs, List.filter_cons, hp]

/-- Helper: releasing the (unique) pool token with a consumed pair's id
removes exactly that pair from the consumed multiset. -/
theorem usedPairs_unset : ∀ (pool : List PTok) (rid : ℕ) (rtok : String),
    (pool.map PTok.id).Nodup →
    (rid, rtok) ∈ usedPairs pool →
    (usedPairs pool).Perm
      ((rid, rtok) ::
        usedPairs (pool.map
          (fun t => if t.id = rid then (⟨t.id, t.token, false⟩ : PTok) else t)))
  | [], _, _, _, hmem => by cases hmem
  | p :: rest, rid, rtok, hnd, hmem => by
    rw [List.map_cons, List.nodup_cons] at hnd
    obtain ⟨hpid, hndrest⟩ := hnd
    rw [List.map_cons]
    by_cases hid : p.id = rid
    · have hrest_id : ∀ u ∈ rest, u.id ≠ rid := by
        intro u hu hc
        exact hpid (by rw [hid]; exact hc ▸ List.mem_map.mpr ⟨u, hu, rfl⟩)
      have hmaprest : rest.map
          (fun t => if t.id = rid then (⟨t.id, t.token, false⟩ : PTok) else t) =
          rest :=
        (List.map_congr_left (fun u hu => by simp [hrest_id u hu])).trans
          (List.map_id rest)
      have hnotrest : (rid, rtok) ∉ usedPairs rest := by
        intro hc
        exact hpid (by rw [hid]; exact usedPairs_mem_id rest (rid, rtok) hc)
      by_cases hp : p.used
      · rw [usedPairs_cons_true p rest hp] at hmem ⊢
        rcases List.mem_cons.mp hmem with he | hc
        · have hpair : pairOf p = (rid, rtok) := he.symm
          have hflip : (if p.id = rid then (⟨p.id, p.token, false⟩ : PTok)
              else p) = ⟨p.id, p.token, false⟩ := by simp [hid]
          rw [hflip, hmaprest,
            usedPairs_cons_false ⟨p.id, p.token, false⟩ rest rfl, ← hpair]
        · exact absurd hc hnotrest
      · have hp' : p.used = false := by simpa using hp
        rw [usedPairs_cons_false p rest hp'] at hmem
        exact absurd hmem hnotrest
    · have hflip : (if p.id = rid then (⟨p.id, p.token, false⟩ : PTok)
          else p) = p := by simp [hid]
      rw [hflip]
      by_cases hp : p.used
      · rw [usedPairs_cons_true p rest hp] at hmem ⊢
        rw [usedPairs_cons_true p _ hp]
        rcases List.mem_cons.mp hmem with he | hc
        · have : rid = p.id := by
            have := congrArg Prod.fst he
            simpa [pairOf] using this
          exact absurd this.symm hid
        · have ih := usedPairs_unset rest rid rtok hndrest hc
          exact (ih.cons (pairOf p)).trans (List.Perm.swap _ _ _)
      · have hp' : p.used = false := by simpa using hp
        rw [usedPairs_cons_false p rest hp'] at hmem ⊢
        rw [usedPairs_cons_false p _ hp']
        exact usedPairs_unset rest rid rtok hndrest hmem

/-- Helper: splicing the j-th entry out of the equation removes exactly its
pair. -/
theorem eqPairs_eraseIdx : ∀ (eq : List ETk) (j : ℕ) (r : ETk),
    eq[j]? = some r →
    (eqPairs eq).Perm ((r.id, r.token) :: eqPairs (eq.eraseIdx j))
  | [], _, _, h => by cases h
  | e :: rest, 0, r, h => by
    simp only [List.getElem?_cons_zero, Option.some.injEq] at h
    subst h
    simp [eqPairs, List.eraseIdx]
  | e :: rest, j + 1, r, h => by
    simp only [List.getElem?_cons_succ] at h
    have ih := eqPairs_eraseIdx rest j r h
    have h1 : eqPairs (e :: rest) = (e.id, e.token) :: eqPairs rest := rfl
    have h2 : eqPairs ((e :: rest).eraseIdx (j + 1)) =
        (e.id, e.token) :: eqPairs (rest.eraseIdx j) := rfl
    rw [h1, h2]
    exact (ih.cons (e.id, e.token)).trans (List.Perm.swap _ _ _)

/-- Helper: a fully released pool has no consumed pairs. -/
theorem usedPairs_unflip : ∀ pool : List PTok,
    usedPairs (pool.map (fun t => (⟨t.id, t.token, false⟩ : PTok))) = []
  | [] => rfl
  | p :: rest => by
    rw [List.map_cons,
      usedPairs_cons_false ⟨p.id, p.token, false⟩ _ rfl]
    exact usedPairs_unflip rest

/-- Helper: an all-available pool has no consumed pairs. -/
theorem usedPairs_fresh : ∀ pool : List PTok,
    (∀ t ∈ pool, t.used = false) → usedPairs pool = []
  | [], _ => rfl
  | p :: rest, h => by
    rw [usedPairs_cons_false p rest (h p (by simp))]
    exact usedPairs_fresh rest (fun t ht => h t (by simp [ht]))

/-- Helper: `place` preserves the invariant. -/
theorem place_inv (pool0 : List PTok) (s s' : GState) (i : ℕ)
    (hinv : PoolInv pool0 s) (h : addToEquation s i = some s') :
    PoolInv pool0 s' := by
  obtain ⟨hid, htok, hperm⟩ := hinv
  unfold addToEquation at h
  cases hget : s.pool[i]? with
  | none => rw [hget] at h; cases h
  | some t =>
    rw [hget] at h
    dsimp only at h
    by_cases hu : t.used
    · rw [if_pos hu] at h
      cases h
      exact ⟨hid, htok, hperm⟩
    · have hu' : t.used = false := by simpa using hu
      rw [if_neg hu] at h
      cases h
      refine ⟨?_, ?_, ?_⟩
      · dsimp only
        rw [map_set_same PTok.id s.pool i t ⟨t.id, t.token, true⟩ hget rfl]
        exact hid
      · dsimp only
        rw [map_set_same PTok.token s.pool i t ⟨t.id, t.token, true⟩ hget rfl]
        exact htok
      · dsimp only
        have he : eqPairs (s.eq ++ [⟨t.id, t.token⟩]) =
            eqPairs s.eq ++ [(t.id, t.token)] := by
          simp [eqPairs]
        rw [he]
        exact (List.perm_append_singleton _ _).trans
          ((hperm.cons _).trans (usedPairs_set_true s.pool i t hget hu').symm)

/-- Helper: `unplace` preserves the invariant (here the uniqueness of ids is
essential, because the source releases by id equality). -/
theorem unplace_inv (pool0 : List PTok) (s s' : GState) (j : ℕ)
    (hnd : (pool0.map PTok.id).Nodup)
    (hinv : PoolInv pool0 s) (h : removeFromEquation s j = some s') :
    PoolInv pool0 s' := by
  obtain ⟨hid, htok, hperm⟩ := hinv
  unfold removeFromEquation at h
  cases hget : s.eq[j]? with
  | none => rw [hget] at h; cases h
  | some r =>
    rw [hget] at h
    dsimp only at h
    cases h
    have hmem : (r.id, r.token) ∈ usedPairs s.pool := by
      apply hperm.mem_iff.mp
      unfold eqPairs
      exact List.mem_map.mpr ⟨r, List.getElem?_mem hget, rfl⟩
    have hnds : (s.pool.map PTok.id).Nodup := by rw [hid]; exact hnd
    have hup := usedPairs_unset s.pool r.id r.token hnds hmem
    have her := eqPairs_eraseIdx s.eq j r hget
    refine ⟨?_, ?_, ?_⟩
    · rw [← hid, List.map_map]
      exact List.map_congr_left (fun u _ => by
        by_cases hc : u.id = r.id <;> simp [hc])
    · rw [← htok, List.map_map]
      exact List.map_congr_left (fun u _ => by
        by_cases hc : u.id = r.id <;> simp [hc])
    · have chain : ((r.id, r.token) :: eqPairs (s.eq.eraseIdx j)).Perm
          ((r.id, r.token) ::
            usedPairs (s.pool.map (fun t =>
              if t.id = r.id then (⟨t.id, t.token, false⟩ : PTok) else t))) :=
        (her.symm.trans hperm).trans hup
      exact List.Perm.cons_inv chain

/-- Helper: `reset` preserves the invariant. -/
theorem reset_inv (pool0 : List PTok) (s : GState) (hinv : PoolInv pool0 s) :
    PoolInv pool0 (resetEquation s) := by
  obtain ⟨hid, htok, _⟩ := hinv
  unfold resetEquation
  refine ⟨?_, ?_, ?_⟩
  · rw [← hid, List.map_map]
    exact List.map_congr_left (fun u _ => rfl)
  · rw [← htok, List.map_map]
    exact List.map_congr_left (fun u _ => rfl)
  · rw [usedPairs_unflip]
    exact List.Perm.refl _

/-- Helper: the invariant holds after any successful run of operations. -/
theorem runOps_inv (pool0 : List PTok) (hnd : (pool0.map PTok.id).Nodup) :
    ∀ (ops : List PoolOp) (s s' : GState),
    PoolInv pool0 s → runOps s ops = some s' → PoolInv pool0 s'
  | [], s, s', hinv, h => by
    cases h
    exact hinv
  | op :: rest, s, s', hinv, h => by
    cases op with
    | place i =>
      unfold runOps at h
      dsimp only at h
      cases hstep : addToEquation s i with
      | none => rw [hstep] at h; cases h
      | some s1 =>
        rw [hstep] at h
        exact runOps_inv pool0 hnd rest s1 s'
          (place_inv pool0 s s1 i hinv hstep) h
    | unplace j =>
      unfold runOps at h
      dsimp only at h
      cases hstep : removeFromEquation s j with
      | none => rw [hstep] at h; cases h
      | some s1 =>
        rw [hstep] at h
        exact runOps_inv pool0 hnd rest s1 s'
          (unplace_inv pool0 s s1 j hnd hinv hstep) h
    | reset =>
      unfold runOps at h
      dsimp only at h
      exact runOps_inv pool0 hnd rest (resetEquation s) s'
        (reset_inv pool0 s hinv) h

/-- C4: along every successful run of `place`/`unplace`/`reset` operations
from a freshly built pool (all tokens available, ids distinct as generated by
`genId`), the equation length always equals the number of consumed pool
tokens, and the available texts together with the placed texts always form
exactly the original puzzle's token multiset. -/
theorem C4_token_conservation (pool0 : List PTok) (ops : List PoolOp)
    (s' : GState) (hnd : (pool0.map PTok.id).Nodup)
    (hfresh : ∀ t ∈ pool0, t.used = false)
    (hrun : runOps ⟨pool0, []⟩ ops = some s') :
    s'.eq.length = (s'.pool.filter (fun t => t.used)).length ∧
    (((s'.pool.filter (fun t => !t.used)).map PTok.token : List String) :
        Multiset String) +
      ((s'.eq.map ETk.token : List String) : Multiset String) =
      ((pool0.map PTok.token : List String) : Multiset String) := by
  have hinv0 : PoolInv pool0 ⟨pool0, []⟩ := by
    refine ⟨rfl, rfl, ?_⟩
    rw [usedPairs_fresh pool0 hfresh]
    exact List.Perm.refl _
  obtain ⟨hid, htok, hperm⟩ := runOps_inv pool0 hnd ops ⟨pool0, []⟩ s' hinv0 hrun
  constructor
  · have h1 : (eqPairs s'.eq).length = s'.eq.length := List.length_map _ _
    have h2 : (usedPairs s'.pool).length =
        (s'.pool.filter (fun t => t.used)).length := List.length_map _ _
    have h3 := hperm.length_eq
    omega
  · have hperm2 : (s'.eq.map ETk.token).Perm
        ((s'.pool.filter (fun t => t.used)).map PTok.token) := by
      have h := hperm.map Prod.snd
      simpa [eqPairs, usedPairs, pairOf, List.map_map, Function.comp] using h
    have hcong : s'.pool.filter (fun x => !!x.used) =
        s'.pool.filter (fun t => t.used) :=
      List.filter_congr (fun a _ => Bool.not_not _)
    have hpart : (((s'.pool.filter (fun t => !t.used)).map PTok.token) ++
        ((s'.pool.filter (fun t => t.used)).map PTok.token)).Perm
        (s'.pool.map PTok.token) := by
      rw [← List.map_append, ← hcong]
      exact (List.filter_append_perm _ _).map PTok.token
    have hfinal : (((s'.pool.filter (fun t => !t.used)).map PTok.token) ++
        (s'.eq.map ETk.token)).Perm (pool0.map PTok.token) := by
      refine ((List.Perm.append_left _ hperm2).trans hpart).trans ?_
      rw [htok]
    rw [Multiset.coe_add]
    exact Multiset.coe_eq_coe.mpr hfinal

/-- Witness for C4: a concrete three-token pool driven through place, place,
unplace, reset, place. -/
theorem C4_witness :
    ((⟨[⟨0, "3", false⟩, ⟨1, "+", true⟩, ⟨2, "4", false⟩],
        [⟨1, "+"⟩]⟩ : GState)).eq.length =
      (((⟨[⟨0, "3", false⟩, ⟨1, "+", true⟩, ⟨2, "4", false⟩],
        [⟨1, "+"⟩]⟩ : GState)).pool.filter (fun t => t.used)).length ∧
    (((((⟨[⟨0, "3", false⟩, ⟨1, "+", true⟩, ⟨2, "4", false⟩],
        [⟨1, "+"⟩]⟩ : GState)).pool.filter
          (fun t => !t.used)).map PTok.token : List String) :
        Multiset String) +
      ((((⟨[⟨0, "3", false⟩, ⟨1, "+", true⟩, ⟨2, "4", false⟩],
        [⟨1, "+"⟩]⟩ : GState)).eq.map ETk.token : List String) :
        Multiset String) =
      (([⟨0, "3", false⟩, ⟨1, "+", false⟩,
          ⟨2, "4", false⟩].map PTok.token : List String) : Multiset String) :=
  C4_token_conservation
    [⟨0, "3", false⟩, ⟨1, "+", false⟩, ⟨2, "4", false⟩]
    [.place 0, .place 2, .unplace 0, .reset, .place 1]
    ⟨[⟨0, "3", false⟩, ⟨1, "+", true⟩, ⟨2, "4", false⟩], [⟨1, "+"⟩]⟩
    (by decide) (by decide) (by decide)

/-- Helper: releasing by the placed token's id undoes the consuming `set`
exactly, because ids are unique and the token was available. -/
theorem pool_unset_set : ∀ (pool : List PTok) (i : ℕ) (t : PTok),
    (pool.map PTok.id).Nodup → pool[i]? = some t → t.used = false →
    (pool.set i ⟨t.id, t.token, true⟩).map
      (fun u => if u.id = t.id then (⟨u.id, u.token, false⟩ : PTok) else u) =
      pool
  | [], _, _, _, h, _ => by cases h
  | p :: rest, 0, t, hnd, hget, huse => by
    simp only [List.getElem?_cons_zero, Option.some.injEq] at hget
    subst hget
    rw [List.map_cons, List.nodup_cons] at hnd
    obtain ⟨hpid, _⟩ := hnd
    rw [List.set_cons_zero, List.map_cons]
    have h1 : (if (⟨p.id, p.token, true⟩ : PTok).id = p.id then
        (⟨p.id, p.token, false⟩ : PTok) else ⟨p.id, p.token, true⟩) = p := by
      rw [if_pos rfl]
      obtain ⟨a, b, c⟩ := p
      simp only at huse
      rw [huse]
    have h2 : rest.map
        (fun u => if u.id = p.id then (⟨u.id, u.token, false⟩ : PTok)
          else u) = rest := by
      refine (List.map_congr_left (fun u hu => ?_)).trans (List.map_id rest)
      have : u.id ≠ p.id := by
        intro hc
        exact hpid (hc ▸ List.mem_map.mpr ⟨u, hu, rfl⟩)
      simp [this]
    rw [h1, h2]
  | p :: rest, i + 1, t, hnd, hget, huse => by
    simp only [List.getElem?_cons_succ] at hget
    rw [List.map_cons, List.nodup_cons] at hnd
    obtain ⟨hpid, hndrest⟩ := hnd
    have htid : t.id ∈ rest.map PTok.id :=
      List.mem_map.mpr ⟨t, List.getElem?_mem hget, rfl⟩
    have hpt : p.id ≠ t.id := by
      intro hc
      exact hpid (hc ▸ htid)
    rw [List.set_cons_succ, List.map_cons]
    have h1 : (if p.id = t.id then (⟨p.id, p.token, false⟩ : PTok) else p) =
        p := by simp [hpt]
    rw [h1, pool_unset_set rest i t hndrest hget huse]

/-- C7: from any builder state with distinct pool ids, placing an available
token `i` and immediately unplacing the entry just appended (index
`eq.length`, the last entry) restores the pool — consumed flags, order and
ids — and the equation sequence to exactly their prior state. -/
theorem C7_place_then_unplace (s : GState) (i : ℕ) (t : PTok)
    (hnd : (s.pool.map PTok.id).Nodup)
    (hget : s.pool[i]? = some t) (huse : t.used = false) :
    (addToEquation s i).bind
      (fun s1 => removeFromEquation s1 s.eq.length) = some s := by
  have hadd : addToEquation s i = some
      ⟨s.pool.set i ⟨t.id, t.token, true⟩, s.eq ++ [⟨t.id, t.token⟩]⟩ := by
    unfold addToEquation
    rw [hget]
    dsimp only
    rw [if_neg (by simp [huse])]
  rw [hadd]
  show removeFromEquation _ s.eq.length = some s
  unfold removeFromEquation
  dsimp only
  rw [List.getElem?_concat_length]
  dsimp only
  rw [List.eraseIdx_append_of_length_le (le_refl _),
    pool_unset_set s.pool i t hnd hget huse]
  simp

/-- Witness for C7: placing then unplacing the token `"4"` of a concrete
partially played state. -/
theorem C7_witness :
    (addToEquation
        ⟨[⟨0, "3", true⟩, ⟨1, "+", false⟩, ⟨2, "4", false⟩], [⟨0, "3"⟩]⟩
        2).bind
      (fun s1 => removeFromEquation s1 1) =
    some ⟨[⟨0, "3", true⟩, ⟨1, "+", false⟩, ⟨2, "4", false⟩], [⟨0, "3"⟩]⟩ :=
  C7_place_then_unplace
    ⟨[⟨0, "3", true⟩, ⟨1, "+", false⟩, ⟨2, "4", false⟩], [⟨0, "3"⟩]⟩
    2 ⟨2, "4", false⟩ (by decide) (by decide) (by decide)
